import Mathlib

/-!
Verification of the heading-extraction core of the Adobe-Hackathon-2025
repository (`src/app.py`, class `AdvancedPDFHeadingExtractor`).

Strings are modelled as `List Char`.  Python regular expressions are
translated into explicit matching functions on character lists, including
the greedy/lazy backtracking behaviour of the concrete patterns used by
the source.  Confidence values (0.9, 0.8, 0.6, 0.5) are scaled by 10 to
naturals (9, 8, 6, 5); they are only ever compared with each other.  The
float threshold `len(text) * 0.3` is modelled by the exact rational
comparison `10 * special > 3 * len`.  Lines produced by the segmenter are
newline-free, so the fact that Python's `.` does not match a newline is
invisible to every matcher below.
-/

namespace App

/-- Python whitespace (`str.strip`, regex class for blanks), ASCII part. -/
def isWs (c : Char) : Bool :=
  c = ' ' || c = '\t' || c = '\n' || c = '\r' || c = '\x0b' || c = '\x0c'

/-- Turn a string literal into the character list it denotes. -/
def s2l (s : String) : List Char := s.data

/-- Python `str.strip`. -/
def pyStrip (cs : List Char) : List Char :=
  ((cs.dropWhile isWs).reverse.dropWhile isWs).reverse

/-- Python `str.split` on a newline, accumulator-based. -/
def splitNl (acc : List Char) : List Char → List (List Char)
  | [] => [acc.reverse]
  | c :: cs => if c = '\n' then acc.reverse :: splitNl [] cs else splitNl (c :: acc) cs

/-- `[line.strip() for line in pdf_text.split] if line.strip()` from `__init__`. -/
def mkLines (cs : List Char) : List (List Char) :=
  ((splitNl [] cs).map pyStrip).filter (fun l => !l.isEmpty)

/-- Greedy run of decimal digits, regex `\d+` when followed by a non-digit. -/
def takeDigits (cs : List Char) : List Char := cs.takeWhile Char.isDigit

/-- Python `int` on a digit string. -/
def digitsToNat (cs : List Char) : Nat :=
  cs.foldl (fun n c => 10 * n + (c.toNat - 48)) 0

/-- Match a literal at the front, returning the remainder on success. -/
def dropLit : List Char → List Char → Option (List Char)
  | [], cs => some cs
  | _ :: _, [] => none
  | l :: ls, c :: cs => if c = l then dropLit ls cs else none

/-- Python `str.startswith`. -/
def startsWithLit (lit cs : List Char) : Bool := (dropLit lit cs).isSome

/-- Python `in` on strings, substring containment. -/
def containsLit (lit : List Char) : List Char → Bool
  | [] => startsWithLit lit []
  | c :: cs => startsWithLit lit (c :: cs) || containsLit lit cs

/-- Anchored match of `Page (\d+) of (\d+)` at the head, giving group 1. -/
def matchPageAt (cs : List Char) : Option Nat :=
  match dropLit (s2l "Page ") cs with
  | none => none
  | some r1 =>
    let d := takeDigits r1
    if d.isEmpty then none
    else match dropLit (s2l " of ") (r1.drop d.length) with
      | none => none
      | some r3 =>
        match r3 with
        | c :: _ => if c.isDigit then some (digitsToNat d) else none
        | [] => none

/-- `re.search` for `Page (\d+) of (\d+)`: leftmost occurrence. -/
def searchMarker : List Char → Option Nat
  | [] => none
  | c :: cs =>
    match matchPageAt (c :: cs) with
    | some p => some p
    | none => searchMarker cs

/-- `_parse_page_info`: the sticky current-page value for each line in turn. -/
def pagesAux (cur : Nat) : List (List Char) → List Nat
  | [] => []
  | l :: ls =>
    let cur' := match searchMarker l with | some p => p | none => cur
    cur' :: pagesAux cur' ls

/-- `self.line_to_page.get(i, 1)`. -/
def pageAt (pages : List Nat) (i : Nat) : Nat := (pages.get? i).getD 1

/-- Regex `^<word>\s+\d` as used by the `version`/`page` noise patterns. -/
def matchWordWsDigit (w : List Char) (L : List Char) : Bool :=
  match dropLit w L with
  | some r =>
    let ws := r.takeWhile isWs
    !ws.isEmpty && (match r.drop ws.length with | c :: _ => c.isDigit | [] => false)
  | none => false

/-- `_is_noise_line`: the ten noise patterns tried on the lowered line. -/
def isNoiseLine (line : List Char) : Bool :=
  let L := line.map Char.toLower
  startsWithLit (s2l "copyright") L ||
  matchWordWsDigit (s2l "version") L ||
  matchWordWsDigit (s2l "page") L ||
  (L.length == 4 && L.all Char.isDigit) ||
  (match L with | c :: _ => c = '©' | [] => false) ||
  (!L.isEmpty && L.all Char.isDigit) ||
  (!L.isEmpty && L.all (fun c => c = 'i' || c = 'v' || c = 'x')) ||
  startsWithLit (s2l "www.") L ||
  startsWithLit (s2l "http://") L ||
  startsWithLit (s2l "https://") L ||
  L.all isWs

/-- `re.sub` of `\s+` by a single space: the flag records whether the previous
character was part of a whitespace run already replaced. -/
def collapseGo : Bool → List Char → List Char
  | _, [] => []
  | prevWs, c :: cs =>
    if isWs c then
      (if prevWs then collapseGo true cs else ' ' :: collapseGo true cs)
    else c :: collapseGo false cs

def collapseWs (cs : List Char) : List Char := collapseGo false cs

/-- Does the whole list match `\.+\s*\d*\s*`?  Greedy runs decide membership. -/
def suffOK : List Char → Bool
  | [] => false
  | c :: cs =>
    if c = '.' then
      (((((c :: cs).dropWhile (fun x => x = '.')).dropWhile isWs).dropWhile
          Char.isDigit).dropWhile isWs).isEmpty
    else false

/-- `re.sub` of `\.+\s*\d*\s*$` by the empty string: the pattern is anchored at
the end, so the single replacement removes the suffix starting at the leftmost
position whose whole remainder matches. -/
def removeTrailing : List Char → List Char
  | [] => []
  | c :: cs => if suffOK (c :: cs) then [] else c :: removeTrailing cs

/-- `_clean_heading_text`. -/
def cleanHeadingText (cs : List Char) : List Char :=
  pyStrip (removeTrailing (collapseWs cs))

/-- Count of characters that are neither alphanumeric nor a space. -/
def specialCount (text : List Char) : Nat :=
  (text.filter (fun c => !(c.isAlphanum || c = ' '))).length

def headUpper (l : List Char) : Bool :=
  match l with | c :: _ => c.isUpper | [] => false

/-- `_is_valid_heading`.  The float test `special > len * 0.3` is the exact
comparison `10 * special > 3 * len`. -/
def isValidHeading (lines : List (List Char)) (text : List Char) (i : Nat) : Bool :=
  if text.isEmpty || text.length < 3 || 200 < text.length then false
  else if text.all Char.isDigit then false
  else if 3 * text.length < 10 * specialCount text then false
  else
    let s1 : Nat :=
      if 0 < i then
        (let prev := pyStrip (lines.getD (i - 1) [])
         if prev.length < 20 || prev.isEmpty then 1 else 0)
      else 0
    let s2 : Nat :=
      if i + 1 < lines.length then
        (let nx := pyStrip (lines.getD (i + 1) [])
         if nx.isEmpty || headUpper nx then 1 else 0)
      else 0
    decide (1 ≤ s1 + s2)

inductive Level
  | H1
  | H2
deriving DecidableEq

structure Cand where
  level : Level
  text : List Char
  page : Nat
  position : Nat
  confidence : Nat
deriving DecidableEq

structure Heading where
  level : Level
  text : List Char
  page : Nat
deriving DecidableEq

structure ExtractResult where
  title : List Char
  outline : List Heading
deriving DecidableEq

/-- The tail `\s+(.+)$` of the numbered-heading patterns, with the regex
backtracking: greedy `\s+`, then `.+` takes the nonempty remainder, giving one
whitespace character back when the remainder would otherwise be empty. -/
def matchTailRest (rest : List Char) : Option (List Char) :=
  let w := rest.takeWhile isWs
  if w.isEmpty then none
  else
    let r := rest.drop w.length
    if !r.isEmpty then some r
    else if 2 ≤ w.length then w.getLast?.map (fun c => [c])
    else none

/-- `^(\d+)\.\s+(.+)$`, groups 1 and 2. -/
def matchMainNum (line : List Char) : Option (List Char × List Char) :=
  let d := takeDigits line
  if d.isEmpty then none
  else
    match line.drop d.length with
    | '.' :: rest => (matchTailRest rest).map (fun r => (d, r))
    | _ => none

/-- `^(\d+\.\d+)\s+(.+)$`, groups 1 and 2. -/
def matchSubNum (line : List Char) : Option (List Char × List Char) :=
  let d1 := takeDigits line
  if d1.isEmpty then none
  else
    match line.drop d1.length with
    | '.' :: rest =>
      let d2 := takeDigits rest
      if d2.isEmpty then none
      else (matchTailRest (rest.drop d2.length)).map (fun r => (d1 ++ '.' :: d2, r))
    | _ => none

/-- One iteration of the `_extract_numbered_headings` loop body. -/
def numberedAt (lines : List (List Char)) (pages : List Nat) (i : Nat)
    (line : List Char) : List Cand :=
  if isNoiseLine line then []
  else
    match matchMainNum line with
    | some (n, r) =>
      let t := cleanHeadingText r
      if isValidHeading lines t i then
        [⟨Level.H1, n ++ '.' :: ' ' :: t, pageAt pages i, i, 9⟩]
      else []
    | none =>
      match matchSubNum line with
      | some (n, r) =>
        let t := cleanHeadingText r
        if isValidHeading lines t i then
          [⟨Level.H2, n ++ ' ' :: t, pageAt pages i, i, 8⟩]
        else []
      | none => []

def numberedAux (lines : List (List Char)) (pages : List Nat) :
    Nat → List (List Char) → List Cand
  | _, [] => []
  | i, l :: ls => numberedAt lines pages i l ++ numberedAux lines pages (i + 1) ls

def numberedHeadings (lines : List (List Char)) (pages : List Nat) : List Cand :=
  numberedAux lines pages 0 lines

/-- Whole-line word with an optional trailing `s`. -/
def litOptS (lit L : List Char) : Bool := L = lit || L = lit ++ ['s']

/-- `\s+` between two words of a structural pattern. -/
def wordGap (r : List Char) : Option (List Char) :=
  let w := r.takeWhile isWs
  if w.isEmpty then none else some (r.drop w.length)

/-- `^<w1>\s+<w2>$`, optionally with a trailing `s` on the second word. -/
def twoWords (w1 w2 : List Char) (optS : Bool) (L : List Char) : Bool :=
  match dropLit w1 L with
  | some r =>
    match wordGap r with
    | some r2 => r2 = w2 || (optS && r2 = w2 ++ ['s'])
    | none => false
  | none => false

/-- `^(table\s+of\s+contents?)$`. -/
def tableOfContentsPat (L : List Char) : Bool :=
  match dropLit (s2l "table") L with
  | some r =>
    match wordGap r with
    | some r2 =>
      match dropLit (s2l "of") r2 with
      | some r3 =>
        match wordGap r3 with
        | some r4 => r4 = s2l "content" || r4 = s2l "contents"
        | none => false
      | none => false
    | none => false
  | none => false

/-- `^(career\s+paths?.*)$`: any line starting `career`, blanks, `path`. -/
def careerPat (L : List Char) : Bool :=
  match dropLit (s2l "career") L with
  | some r =>
    match wordGap r with
    | some r2 => startsWithLit (s2l "path") r2
    | none => false
  | none => false

/-- The `structural_patterns` dictionary, tried in insertion order. -/
def structuralLevelOf (L : List Char) : Option Level :=
  if litOptS (s2l "acknowledgement") L then some Level.H1
  else if L = s2l "abstract" then some Level.H1
  else if L = s2l "introduction" then some Level.H1
  else if L = s2l "conclusion" then some Level.H1
  else if litOptS (s2l "reference") L then some Level.H1
  else if twoWords (s2l "revision") (s2l "history") false L then some Level.H1
  else if tableOfContentsPat L then some Level.H1
  else if twoWords (s2l "intended") (s2l "audience") false L then some Level.H2
  else if careerPat L then some Level.H2
  else if twoWords (s2l "learning") (s2l "objective") true L then some Level.H2
  else if twoWords (s2l "entry") (s2l "requirement") true L then some Level.H2
  else if twoWords (s2l "business") (s2l "outcome") true L then some Level.H2
  else if L = s2l "content" then some Level.H2
  else if litOptS (s2l "trademark") L then some Level.H2
  else none

/-- One iteration of the `_extract_structural_headings` loop body. -/
def structuralAt (lines : List (List Char)) (pages : List Nat) (i : Nat)
    (line : List Char) : List Cand :=
  match structuralLevelOf (pyStrip (line.map Char.toLower)) with
  | some lvl =>
    if isValidHeading lines line i then [⟨lvl, line, pageAt pages i, i, 6⟩] else []
  | none => []

def structuralAux (lines : List (List Char)) (pages : List Nat) :
    Nat → List (List Char) → List Cand
  | _, [] => []
  | i, l :: ls => structuralAt lines pages i l ++ structuralAux lines pages (i + 1) ls

def structuralHeadings (lines : List (List Char)) (pages : List Nat) : List Cand :=
  structuralAux lines pages 0 lines

/-- Is the remainder of the line of the shape `\s+\d+` up to its end? -/
def wsDigitsEnd (cs : List Char) : Bool :=
  let w := cs.takeWhile isWs
  if w.isEmpty then false
  else
    let r := cs.drop w.length
    !r.isEmpty && r.all Char.isDigit

/-- The lazy group `(.+?)\s+(\d+)$`: the shortest nonempty prefix whose
remainder is blanks followed by trailing digits; returns (group2, group3). -/
def lazyGo (accRev : List Char) : List Char → Option (List Char × List Char)
  | [] => none
  | c :: cs =>
    if wsDigitsEnd cs then some ((c :: accRev).reverse, cs.dropWhile isWs)
    else lazyGo (c :: accRev) cs

def lazySplit (cs : List Char) : Option (List Char × List Char) := lazyGo [] cs

/-- Backtracking of the greedy `\s+` before the lazy group: try the longest
whitespace run first, giving characters back one at a time. -/
def tocTailSearch : Nat → List Char → Option (List Char × List Char)
  | 0, _ => none
  | w + 1, rest =>
    match lazySplit (rest.drop (w + 1)) with
    | some r => some r
    | none => tocTailSearch w rest

/-- `^(\d+)\.\s+(.+?)\s+(\d+)$`, groups 1-3. -/
def tocMatch1 (line : List Char) : Option (List Char × List Char × List Char) :=
  let d := takeDigits line
  if d.isEmpty then none
  else
    match line.drop d.length with
    | '.' :: rest =>
      (tocTailSearch (rest.takeWhile isWs).length rest).map (fun tp => (d, tp.1, tp.2))
    | _ => none

/-- `^(\d+\.\d+)\s+(.+?)\s+(\d+)$`, groups 1-3. -/
def tocMatch2 (line : List Char) : Option (List Char × List Char × List Char) :=
  let d1 := takeDigits line
  if d1.isEmpty then none
  else
    match line.drop d1.length with
    | '.' :: rest =>
      let d2 := takeDigits rest
      if d2.isEmpty then none
      else
        (tocTailSearch ((rest.drop d2.length).takeWhile isWs).length
            (rest.drop d2.length)).map (fun tp => (d1 ++ '.' :: d2, tp.1, tp.2))
    | _ => none

/-- The `_extract_toc_headings` loop: flag `inToc`, line index `i`. -/
def tocAux : Bool → Nat → List (List Char) → List Cand
  | _, _, [] => []
  | inToc, i, line :: ls =>
    let L := pyStrip (line.map Char.toLower)
    if containsLit (s2l "table of contents") L then tocAux true (i + 1) ls
    else if inToc &&
        (startsWithLit (s2l "page ") L || L = s2l "abstract" ||
         L = s2l "introduction" || L = s2l "acknowledgements") then
      tocAux false (i + 1) ls
    else if inToc && !line.isEmpty then
      match tocMatch1 line with
      | some (n, t, p) =>
        ⟨Level.H1, n ++ ' ' :: t, digitsToNat p, i, 5⟩ :: tocAux true (i + 1) ls
      | none =>
        match tocMatch2 line with
        | some (n, t, p) =>
          ⟨Level.H2, n ++ ' ' :: t, digitsToNat p, i, 5⟩ :: tocAux true (i + 1) ls
        | none => tocAux true (i + 1) ls
    else tocAux inToc (i + 1) ls

def tocHeadings (lines : List (List Char)) : List Cand := tocAux false 0 lines

/-- Key `(-confidence, position)` of the first sort, as a boolean order. -/
def leConf (a b : Cand) : Bool :=
  decide (b.confidence < a.confidence ∨
    (a.confidence = b.confidence ∧ a.position ≤ b.position))

/-- Stable insertion used to model Python's stable `list.sort`. -/
def insertLe {α : Type} (le : α → α → Bool) (x : α) : List α → List α
  | [] => [x]
  | y :: ys => if le x y then x :: y :: ys else y :: insertLe le x ys

def sortLe {α : Type} (le : α → α → Bool) : List α → List α
  | [] => []
  | x :: xs => insertLe le x (sortLe le xs)

/-- The deduplication key `(text.lower().strip(), page)`. -/
def dedupKeyT (text : List Char) (page : Nat) : List Char × Nat :=
  (pyStrip (text.map Char.toLower), page)

/-- The dedup walk over the confidence-sorted candidates. -/
def dedupGo (seen : List (List Char × Nat)) : List Cand → List Heading
  | [] => []
  | c :: cs =>
    let k := dedupKeyT c.text c.page
    if k ∈ seen then dedupGo seen cs
    else ⟨c.level, c.text, c.page⟩ :: dedupGo (k :: seen) cs

/-- The generator predicate of the final re-sort key lookup. -/
def candMatches (h : Heading) (c : Cand) : Bool :=
  decide (c.text = h.text ∧ c.page = h.page)

/-- `next(h for h in headings if ...)['position']`; the default 0 is never
reached because every kept heading has a source candidate. -/
def findPos (sorted : List Cand) (h : Heading) : Nat :=
  ((sorted.find? (candMatches h)).map Cand.position).getD 0

def leFinal (sorted : List Cand) (a b : Heading) : Bool :=
  decide (findPos sorted a ≤ findPos sorted b)

/-- `_clean_and_process_headings`. -/
def cleanAndProcess (cands : List Cand) : List Heading :=
  let sorted := sortLe leConf cands
  sortLe (leFinal sorted) (dedupGo [] sorted)

/-- `extract_headings` gathers the three detectors in order. -/
def allCands (lines : List (List Char)) (pages : List Nat) : List Cand :=
  numberedHeadings lines pages ++ structuralHeadings lines pages ++ tocHeadings lines

/-- `re.match` of `^\d+\.` used by the title resolver. -/
def startsNumDot (l : List Char) : Bool :=
  let d := takeDigits l
  !d.isEmpty && (match l.drop d.length with | '.' :: _ => true | _ => false)

/-- The condition on a candidate title line in `_determine_document_title`. -/
def titleOk (l : List Char) : Bool :=
  decide (10 < l.length) && !startsNumDot l && !isNoiseLine l &&
    !startsWithLit (s2l "page ") (l.map Char.toLower)

/-- `_determine_document_title`. -/
def determineTitle (lines : List (List Char)) (headings : List Heading) : List Char :=
  if headings.isEmpty then s2l "Unknown Document"
  else
    match (lines.take 10).find? titleOk with
    | some l => l
    | none =>
      match headings with
      | h :: _ => h.text
      | [] => s2l "Unknown Document"

def linesOf (input : List Char) : List (List Char) := mkLines input

def pagesOf (input : List Char) : List Nat := pagesAux 1 (linesOf input)

def candsOf (input : List Char) : List Cand := allCands (linesOf input) (pagesOf input)

def sortedOf (input : List Char) : List Cand := sortLe leConf (candsOf input)

def outlineOf (input : List Char) : List Heading := cleanAndProcess (candsOf input)

/-- `extract_headings` / `extract_headings_from_pdf_text`. -/
def extractHeadings (input : List Char) : ExtractResult :=
  ⟨determineTitle (linesOf input) (outlineOf input), outlineOf input⟩

/-! ### Generic facts about the stable insertion sort -/

theorem insertLe_perm {α : Type} (le : α → α → Bool) (x : α) (l : List α) :
    (insertLe le x l).Perm (x :: l) := by
  induction l with
  | nil => simp [insertLe]
  | cons y ys ih =>
    simp only [insertLe]
    by_cases h : le x y = true
    · simp [h]
    · simp only [h, if_false]
      exact (ih.cons y).trans (List.Perm.swap x y ys)

theorem sortLe_perm {α : Type} (le : α → α → Bool) (l : List α) :
    (sortLe le l).Perm l := by
  induction l with
  | nil => simp [sortLe]
  | cons x xs ih => exact (insertLe_perm le x (sortLe le xs)).trans (ih.cons x)

theorem insertLe_pairwise {α : Type} (le : α → α → Bool)
    (htot : ∀ a b, le a b = true ∨ le b a = true)
    (htrans : ∀ a b c, le a b = true → le b c = true → le a c = true)
    (x : α) (l : List α) (hl : l.Pairwise (fun a b => le a b = true)) :
    (insertLe le x l).Pairwise (fun a b => le a b = true) := by
  induction l with
  | nil => simp [insertLe]
  | cons y ys ih =>
    rcases List.pairwise_cons.1 hl with ⟨hy, hys⟩
    simp only [insertLe]
    by_cases h : le x y = true
    · simp only [h, if_true]
      refine List.pairwise_cons.2 ⟨?_, hl⟩
      intro z hz
      rcases List.mem_cons.1 hz with rfl | hz
      · exact h
      · exact htrans _ _ _ h (hy z hz)
    · have hyx : le y x = true := (htot x y).resolve_left h
      simp only [h, if_false]
      refine List.pairwise_cons.2 ⟨?_, ih hys⟩
      intro z hz
      have hz' : z = x ∨ z ∈ ys := by
        simpa using (insertLe_perm le x ys).mem_iff.1 hz
      rcases hz' with rfl | hz'
      · exact hyx
      · exact hy z hz'

theorem sortLe_pairwise {α : Type} (le : α → α → Bool)
    (htot : ∀ a b, le a b = true ∨ le b a = true)
    (htrans : ∀ a b c, le a b = true → le b c = true → le a c = true)
    (l : List α) : (sortLe le l).Pairwise (fun a b => le a b = true) := by
  induction l with
  | nil => simp [sortLe]
  | cons x xs ih => exact insertLe_pairwise le htot htrans x _ ih

/-! ### Facts about the deduplication walk -/

theorem dedupGo_mem {seen : List (List Char × Nat)} {l : List Cand} {h : Heading}
    (hm : h ∈ dedupGo seen l) : ∃ c ∈ l, h = ⟨c.level, c.text, c.page⟩ := by
  induction l generalizing seen with
  | nil => simp [dedupGo] at hm
  | cons c cs ih =>
    simp only [dedupGo] at hm
    by_cases hk : dedupKeyT c.text c.page ∈ seen
    · simp only [hk, if_true] at hm
      rcases ih hm with ⟨c', hc', rfl⟩
      exact ⟨c', List.mem_cons_of_mem _ hc', rfl⟩
    · simp only [hk, if_false, List.mem_cons] at hm
      rcases hm with rfl | hm
      · exact ⟨c, List.mem_cons_self _ _, rfl⟩
      · rcases ih hm with ⟨c', hc', rfl⟩
        exact ⟨c', List.mem_cons_of_mem _ hc', rfl⟩

theorem dedupGo_key_notmem {seen : List (List Char × Nat)} {l : List Cand} {h : Heading}
    (hm : h ∈ dedupGo seen l) : dedupKeyT h.text h.page ∉ seen := by
  induction l generalizing seen with
  | nil => simp [dedupGo] at hm
  | cons c cs ih =>
    simp only [dedupGo] at hm
    by_cases hk : dedupKeyT c.text c.page ∈ seen
    · simp only [hk, if_true] at hm
      exact ih hm
    · simp only [hk, if_false, List.mem_cons] at hm
      rcases hm with rfl | hm
      · exact hk
      · intro hmem
        exact ih hm (List.mem_cons_of_mem _ hmem)

theorem dedupGo_pairwise (seen : List (List Char × Nat)) (l : List Cand) :
    (dedupGo seen l).Pairwise
      (fun a b : Heading => dedupKeyT a.text a.page ≠ dedupKeyT b.text b.page) := by
  induction l generalizing seen with
  | nil => simp [dedupGo]
  | cons c cs ih =>
    simp only [dedupGo]
    by_cases hk : dedupKeyT c.text c.page ∈ seen
    · simp only [hk, if_true]
      exact ih seen
    · simp only [hk, if_false]
      refine List.pairwise_cons.2 ⟨?_, ih _⟩
      intro h' hm hcontra
      have := dedupGo_key_notmem hm
      exact this (by rw [← hcontra]; exact List.mem_cons_self _ _)

/-- C1.  For every input the extractor returns a total result: on the empty
input it is exactly the record with title Unknown Document and empty outline,
and the position lookup of the final re-sort (the only partial operation of
the Python source, a `next(...)` call) always finds a source candidate, so no
exception can be raised. -/
theorem extract_total_and_empty :
    extractHeadings (s2l "") = ⟨s2l "Unknown Document", []⟩ ∧
    ∀ (input : List Char) (h : Heading), h ∈ dedupGo [] (sortedOf input) →
      ((sortedOf input).find? (candMatches h)).isSome = true := by
  constructor
  · decide
  · intro input h hm
    rcases dedupGo_mem hm with ⟨c, hc, rfl⟩
    simp only [List.find?_isSome]
    exact ⟨c, hc, by simp [candMatches]⟩

/-- Witness for C1 at a concrete input and heading. -/
theorem extract_total_and_empty_witness :
    ((sortedOf (s2l "Table of Contents\n1. Introduction 5")).find?
      (candMatches ⟨Level.H1, s2l "1 Introduction", 5⟩)).isSome = true :=
  extract_total_and_empty.2 (s2l "Table of Contents\n1. Introduction 5")
    ⟨Level.H1, s2l "1 Introduction", 5⟩ (by decide)

/-- C2.  No two headings of the final outline share the deduplication key
(lower-cased stripped text, page). -/
theorem outline_key_unique (input : List Char) :
    (extractHeadings input).outline.Pairwise
      (fun a b => dedupKeyT a.text a.page ≠ dedupKeyT b.text b.page) := by
  have hperm : ((extractHeadings input).outline).Perm
      (dedupGo [] (sortedOf input)) := by
    simpa [extractHeadings, outlineOf, cleanAndProcess, sortedOf] using
      sortLe_perm (leFinal (sortLe leConf (candsOf input)))
        (dedupGo [] (sortLe leConf (candsOf input)))
  exact (hperm.pairwise_iff (fun h => Ne.symm h)).2 (dedupGo_pairwise [] _)

/-- C3.  The final outline is ordered by non-decreasing source position: the
re-sort key of each heading is the position of a candidate that produced it
(same text and page), looked up in the confidence-sorted candidate list. -/
theorem outline_sorted_by_position (input : List Char) :
    (extractHeadings input).outline.Pairwise
      (fun a b => findPos (sortedOf input) a ≤ findPos (sortedOf input) b) ∧
    ∀ h ∈ (extractHeadings input).outline, ∃ c, c ∈ candsOf input ∧
      c.text = h.text ∧ c.page = h.page ∧ findPos (sortedOf input) h = c.position := by
  constructor
  · have hout : (extractHeadings input).outline =
        sortLe (leFinal (sortedOf input)) (dedupGo [] (sortedOf input)) := by
      simp [extractHeadings, outlineOf, cleanAndProcess, sortedOf]
    rw [hout]
    have := sortLe_pairwise (leFinal (sortedOf input))
      (by intro a b; simp only [leFinal, decide_eq_true_eq]; omega)
      (by intro a b c; simp only [leFinal, decide_eq_true_eq]; omega)
      (dedupGo [] (sortedOf input))
    exact this.imp (by intro a b hab; simpa [leFinal] using hab)
  · intro h hm
    have hout : (extractHeadings input).outline =
        sortLe (leFinal (sortedOf input)) (dedupGo [] (sortedOf input)) := by
      simp [extractHeadings, outlineOf, cleanAndProcess, sortedOf]
    rw [hout] at hm
    have hm' : h ∈ dedupGo [] (sortedOf input) :=
      (sortLe_perm _ _).mem_iff.1 hm
    rcases dedupGo_mem hm' with ⟨c, hc, rfl⟩
    have hsome : ((sortedOf input).find? (candMatches ⟨c.level, c.text, c.page⟩)).isSome = true := by
      simp only [List.find?_isSome]
      exact ⟨c, hc, by simp [candMatches]⟩
    rcases Option.isSome_iff_exists.1 hsome with ⟨c₀, hfind⟩
    have hc₀mem : c₀ ∈ candsOf input :=
      (sortLe_perm leConf (candsOf input)).mem_iff.1 (List.mem_of_find?_eq_some hfind)
    have hc₀match := List.find?_some hfind
    simp only [candMatches, decide_eq_true_eq] at hc₀match
    refine ⟨c₀, hc₀mem, hc₀match.1, hc₀match.2, ?_⟩
    simp [findPos, hfind]

/-- Witness for C3's second component at a concrete input. -/
theorem outline_sorted_by_position_witness :
    ∃ c, c ∈ candsOf (s2l "Table of Contents\n1. Introduction 5") ∧
      c.text = (⟨Level.H1, s2l "1 Introduction", 5⟩ : Heading).text ∧
      c.page = (⟨Level.H1, s2l "1 Introduction", 5⟩ : Heading).page ∧
      findPos (sortedOf (s2l "Table of Contents\n1. Introduction 5"))
        ⟨Level.H1, s2l "1 Introduction", 5⟩ = c.position :=
  (outline_sorted_by_position (s2l "Table of Contents\n1. Introduction 5")).2
    ⟨Level.H1, s2l "1 Introduction", 5⟩ (by decide)

/-- C4 counterexample.  On a one-line input whose single line qualifies as a
title, the resolved outline is empty and the code returns the fallback string
rather than the qualifying line, because the empty-outline check is performed
before the line scan. -/
theorem title_claim_counterexample :
    (extractHeadings (s2l "This is a long title line")).outline = [] ∧
    titleOk (s2l "This is a long title line") = true ∧
    (linesOf (s2l "This is a long title line")).take 10 =
      [s2l "This is a long title line"] ∧
    (extractHeadings (s2l "This is a long title line")).title =
      s2l "Unknown Document" := by
  decide

/-- C4 amended.  If the outline is empty the title is the fallback string
regardless of the lines; only for a nonempty outline are the first 10 lines
scanned for a qualifying line, the first heading text being the fallback. -/
theorem title_resolution (input : List Char) :
    (extractHeadings input).title =
      (match (extractHeadings input).outline with
       | [] => s2l "Unknown Document"
       | h :: _ => (((linesOf input).take 10).find? titleOk).getD h.text) := by
  show determineTitle (linesOf input) (outlineOf input) =
    (match outlineOf input with
     | [] => s2l "Unknown Document"
     | h :: _ => (((linesOf input).take 10).find? titleOk).getD h.text)
  cases h : outlineOf input with
  | nil => simp [determineTitle]
  | cons hd tl =>
    simp only [determineTitle, List.isEmpty_cons, Bool.false_eq_true, if_false]
    cases hfind : ((linesOf input).take 10).find? titleOk with
    | some l => simp
    | none => simp

/-- Context score as amended: a point requires the neighbouring line to
exist, the code awards nothing for an absent neighbour. -/
def contextScoreSpec (lines : List (List Char)) (i : Nat) : Nat :=
  (if 0 < i ∧ ((pyStrip (lines.getD (i - 1) [])).length < 20 ∨
      (pyStrip (lines.getD (i - 1) [])).isEmpty = true) then 1 else 0) +
  (if i + 1 < lines.length ∧ ((pyStrip (lines.getD (i + 1) [])).isEmpty = true ∨
      headUpper (pyStrip (lines.getD (i + 1) [])) = true) then 1 else 0)

/-- C6 counterexample.  In a single-line document the candidate text passes
every syntactic filter (so the claim's context score would be 2 and the
candidate accepted), yet the validity check rejects it: both neighbour checks
are skipped when the neighbour is absent, so the score is 0, and the one-line
document yields an empty outline. -/
theorem valid_heading_counterexample :
    isValidHeading [s2l "1. Introduction"] (s2l "Introduction") 0 = false ∧
    (s2l "Introduction").isEmpty = false ∧
    3 ≤ (s2l "Introduction").length ∧
    (s2l "Introduction").length ≤ 200 ∧
    (s2l "Introduction").all Char.isDigit = false ∧
    10 * specialCount (s2l "Introduction") ≤ 3 * (s2l "Introduction").length ∧
    extractHeadings (s2l "1. Introduction") = ⟨s2l "Unknown Document", []⟩ := by
  decide

/-- C6 amended.  A syntactically matched candidate is accepted iff its text
passes the length, digit and special-character filters and the context score
is at least 1, where a point is awarded only when the previous line exists
and is shorter than 20 characters (or empty), and only when the next line
exists and is empty or starts with an uppercase letter; absent neighbours
contribute nothing, so a single-line document is always rejected. -/
theorem valid_heading_iff (lines : List (List Char)) (text : List Char) (i : Nat) :
    isValidHeading lines text i = true ↔
      (text.isEmpty = false ∧ 3 ≤ text.length ∧ text.length ≤ 200 ∧
       text.all Char.isDigit = false ∧
       10 * specialCount text ≤ 3 * text.length ∧
       1 ≤ contextScoreSpec lines i) := by
  simp only [isValidHeading]
  by_cases hb1 : (text.isEmpty || decide (text.length < 3) || decide (200 < text.length)) = true
  · rw [if_pos hb1]
    simp only [Bool.or_eq_true, decide_eq_true_eq] at hb1
    constructor
    · intro h; exact absurd h (by simp)
    · rintro ⟨he, h3le, h200, -⟩
      exfalso
      rcases hb1 with (hb1 | hb1) | hb1
      · rw [he] at hb1; cases hb1
      · omega
      · omega
  · rw [if_neg hb1]
    simp only [Bool.or_eq_true, decide_eq_true_eq, not_or, Bool.not_eq_true] at hb1
    rcases hb1 with ⟨⟨he, hl⟩, hr⟩
    by_cases hb2 : text.all Char.isDigit = true
    · rw [if_pos hb2]
      constructor
      · intro h; exact absurd h (by simp)
      · rintro ⟨-, -, -, hd, -⟩
        rw [hd] at hb2; cases hb2
    · have hb2' : text.all Char.isDigit = false := by
        cases h' : text.all Char.isDigit
        · rfl
        · exact absurd h' hb2
      rw [if_neg hb2]
      by_cases hb3 : 3 * text.length < 10 * specialCount text
      · rw [if_pos hb3]
        constructor
        · intro h; exact absurd h (by simp)
        · rintro ⟨-, -, -, -, hs, -⟩
          omega
      · rw [if_neg hb3]
        have hscore :
            ((if 0 < i then
              (if ((pyStrip (lines.getD (i - 1) [])).length < 20 ||
                  (pyStrip (lines.getD (i - 1) [])).isEmpty) = true then (1 : Nat) else 0)
             else 0) +
            (if i + 1 < lines.length then
              (if ((pyStrip (lines.getD (i + 1) [])).isEmpty ||
                  headUpper (pyStrip (lines.getD (i + 1) []))) = true then (1 : Nat) else 0)
             else 0)) = contextScoreSpec lines i := by
          simp only [contextScoreSpec]
          by_cases hi : 0 < i <;> by_cases hj : i + 1 < lines.length <;>
            by_cases hA : ((pyStrip (lines.getD (i - 1) [])).length < 20 ∨
              (pyStrip (lines.getD (i - 1) [])).isEmpty = true) <;>
            by_cases hB : ((pyStrip (lines.getD (i + 1) [])).isEmpty = true ∨
              headUpper (pyStrip (lines.getD (i + 1) [])) = true) <;>
            simp_all [Bool.or_eq_true, decide_eq_true_eq]
        rw [hscore, decide_eq_true_eq]
        constructor
        · intro h
          exact ⟨he, by omega, by omega, hb2', by omega, h⟩
        · rintro ⟨-, -, -, -, -, hctx⟩
          exact hctx

/-- Witness for C6: a valid heading with an existing short previous line. -/
theorem valid_heading_iff_witness :
    isValidHeading [s2l "Short", s2l "1. Introduction"] (s2l "Introduction") 1 = true :=
  (valid_heading_iff [s2l "Short", s2l "1. Introduction"] (s2l "Introduction") 1).2
    (by decide)

/-! ### Structure of cleaned text: whitespace normal form -/

theorem bool_not_true {b : Bool} (h : ¬ b = true) : b = false := by
  cases b
  · rfl
  · exact absurd rfl h

/-- Whitespace normal form: every blank is a space and no two blanks are
adjacent.  The collapse pass establishes it and fixes exactly these lists. -/
def wsOkP (cs : List Char) : Prop :=
  (∀ c ∈ cs, isWs c = true → c = ' ') ∧
  List.Chain' (fun a b => ¬(isWs a = true ∧ isWs b = true)) cs

theorem collapseGo_wsOk (cs : List Char) : ∀ b : Bool,
    wsOkP (collapseGo b cs) ∧
    (b = true → ∀ c, (collapseGo b cs).head? = some c → isWs c = false) := by
  induction cs with
  | nil =>
    intro b
    refine ⟨⟨by simp [collapseGo], by simp [collapseGo]⟩, ?_⟩
    intro _ c hc
    simp [collapseGo] at hc
  | cons c cs ih =>
    intro b
    by_cases hw : isWs c = true
    · cases b with
      | true =>
        have hstep : collapseGo true (c :: cs) = collapseGo true cs := by
          simp [collapseGo, hw]
        rw [hstep]
        exact ih true
      | false =>
        have hstep : collapseGo false (c :: cs) = ' ' :: collapseGo true cs := by
          simp [collapseGo, hw]
        rw [hstep]
        refine ⟨⟨?_, ?_⟩, ?_⟩
        · intro x hx hwx
          rcases List.mem_cons.1 hx with rfl | hx
          · rfl
          · exact (ih true).1.1 x hx hwx
        · rw [List.chain'_cons']
          refine ⟨?_, (ih true).1.2⟩
          intro y hy
          have hyws : isWs y = false := (ih true).2 rfl y hy
          simp [hyws]
        · intro hfalse
          cases hfalse
    · have hw' : isWs c = false := bool_not_true hw
      have hstep : collapseGo b (c :: cs) = c :: collapseGo false cs := by
        cases b <;> simp [collapseGo, hw']
      rw [hstep]
      refine ⟨⟨?_, ?_⟩, ?_⟩
      · intro x hx hwx
        rcases List.mem_cons.1 hx with rfl | hx
        · exact absurd hwx hw
        · exact (ih false).1.1 x hx hwx
      · rw [List.chain'_cons']
        refine ⟨?_, (ih false).1.2⟩
        intro y hy
        rintro ⟨h1, -⟩
        exact hw h1
      · intro _ c' hc'
        simp only [List.head?_cons, Option.some.injEq] at hc'
        rw [← hc']
        exact hw'

theorem wsOkP_tail {c : Char} {cs : List Char} (h : wsOkP (c :: cs)) : wsOkP cs :=
  ⟨fun x hx => h.1 x (List.mem_cons_of_mem _ hx), (List.chain'_cons'.1 h.2).2⟩

theorem collapseGo_fix (cs : List Char) (h : wsOkP cs) :
    collapseGo false cs = cs ∧
    ((∀ c, cs.head? = some c → isWs c = false) → collapseGo true cs = cs) := by
  induction cs with
  | nil => exact ⟨rfl, fun _ => rfl⟩
  | cons c cs ih =>
    have htail := wsOkP_tail h
    by_cases hw : isWs c = true
    · have hc : c = ' ' := h.1 c (List.mem_cons_self _ _) hw
      have hhead : ∀ y, cs.head? = some y → isWs y = false := by
        intro y hy
        have hnot := (List.chain'_cons'.1 h.2).1 y hy
        cases hyw : isWs y
        · rfl
        · exact absurd ⟨hw, hyw⟩ hnot
      have hrec : collapseGo true cs = cs := (ih htail).2 hhead
      refine ⟨?_, ?_⟩
      · have hstep : collapseGo false (c :: cs) = ' ' :: collapseGo true cs := by
          simp [collapseGo, hw]
        rw [hstep, hrec, hc]
      · intro hh
        exact absurd (hh c rfl) (by simp [hw])
    · have hw' : isWs c = false := bool_not_true hw
      have hrec : collapseGo false cs = cs := (ih htail).1
      refine ⟨?_, ?_⟩
      · simp [collapseGo, hw', hrec]
      · intro _
        simp [collapseGo, hw', hrec]

theorem wsOkP_append_left {l₁ l₂ : List Char} (h : wsOkP (l₁ ++ l₂)) : wsOkP l₁ :=
  ⟨fun c hc => h.1 c (List.mem_append_left _ hc), (List.chain'_append.1 h.2).1⟩

theorem wsOkP_append_right {l₁ l₂ : List Char} (h : wsOkP (l₁ ++ l₂)) : wsOkP l₂ :=
  ⟨fun c hc => h.1 c (List.mem_append_right _ hc), (List.chain'_append.1 h.2).2.1⟩

theorem removeTrailing_isPre (cs : List Char) :
    List.IsPrefix (removeTrailing cs) cs := by
  induction cs with
  | nil => exact ⟨[], rfl⟩
  | cons c cs ih =>
    by_cases h : suffOK (c :: cs) = true
    · rw [show removeTrailing (c :: cs) = [] by simp [removeTrailing, h]]
      exact ⟨c :: cs, rfl⟩
    · rw [show removeTrailing (c :: cs) = c :: removeTrailing cs by
        simp [removeTrailing, bool_not_true h]]
      rcases ih with ⟨t, ht⟩
      exact ⟨t, by rw [List.cons_append, ht]⟩

theorem isPre_head {l₁ l₂ : List Char} (h : List.IsPrefix l₁ l₂) {c : Char}
    (hc : l₁.head? = some c) : l₂.head? = some c := by
  rcases h with ⟨t, rfl⟩
  cases l₁ with
  | nil => cases hc
  | cons a l =>
    simp only [List.head?_cons, Option.some.injEq] at hc
    simp [hc]

theorem dropWhile_head_false {p : Char → Bool} {l : List Char} {c : Char}
    (hc : (l.dropWhile p).head? = some c) : p c = false := by
  have h := List.head?_dropWhile_not p l
  rw [hc] at h
  exact h

theorem rev_dropWhile_isPre (u : List Char) :
    List.IsPrefix (u.reverse.dropWhile isWs).reverse u := by
  have hsuf : u.reverse.dropWhile isWs <:+ u.reverse := List.dropWhile_suffix isWs
  rcases hsuf with ⟨t, ht⟩
  refine ⟨t.reverse, ?_⟩
  have h := congrArg List.reverse ht
  simpa [List.reverse_append] using h

theorem pyStrip_isPre_of_head {cs : List Char}
    (h : ∀ c, cs.head? = some c → isWs c = false) :
    List.IsPrefix (pyStrip cs) cs := by
  have hdw : cs.dropWhile isWs = cs := by
    cases cs with
    | nil => rfl
    | cons c cs' =>
      rw [List.dropWhile_cons_of_neg]
      simp [h c rfl]
  unfold pyStrip
  rw [hdw]
  exact rev_dropWhile_isPre cs

theorem pyStrip_head_false {cs : List Char} {c : Char}
    (hc : (pyStrip cs).head? = some c) : isWs c = false := by
  unfold pyStrip at hc
  have hpre : List.IsPrefix ((cs.dropWhile isWs).reverse.dropWhile isWs).reverse
      (cs.dropWhile isWs) := rev_dropWhile_isPre _
  exact dropWhile_head_false (isPre_head hpre hc)

theorem pyStrip_decomp (l : List Char) : ∃ a b, l = a ++ pyStrip l ++ b ∧
    (∀ c ∈ a, isWs c = true) ∧ (∀ c ∈ b, isWs c = true) := by
  refine ⟨l.takeWhile isWs, ((l.dropWhile isWs).reverse.takeWhile isWs).reverse,
    ?_, ?_, ?_⟩
  · have h0 : l.takeWhile isWs ++ l.dropWhile isWs = l :=
      List.takeWhile_append_dropWhile isWs l
    have h2 : (l.dropWhile isWs).reverse.takeWhile isWs ++
        (l.dropWhile isWs).reverse.dropWhile isWs = (l.dropWhile isWs).reverse :=
      List.takeWhile_append_dropWhile isWs (l.dropWhile isWs).reverse
    have h1 : ((l.dropWhile isWs).reverse.dropWhile isWs).reverse ++
        ((l.dropWhile isWs).reverse.takeWhile isWs).reverse = l.dropWhile isWs := by
      have h3 := congrArg List.reverse h2
      rw [List.reverse_append, List.reverse_reverse] at h3
      exact h3
    calc l = l.takeWhile isWs ++ l.dropWhile isWs := h0.symm
    _ = l.takeWhile isWs ++ (((l.dropWhile isWs).reverse.dropWhile isWs).reverse ++
        ((l.dropWhile isWs).reverse.takeWhile isWs).reverse) := by rw [h1]
    _ = l.takeWhile isWs ++ pyStrip l ++
        ((l.dropWhile isWs).reverse.takeWhile isWs).reverse := by
      rw [List.append_assoc]
      rfl
  · intro c hc
    exact List.mem_takeWhile_imp hc
  · intro c hc
    rw [List.mem_reverse] at hc
    exact List.mem_takeWhile_imp hc

/-- C5 counterexample.  Cleaning strips one end-anchored dot-number artifact
per call, so a second application can strip again: the claimed idempotence
fails already on the five-character input. -/
theorem clean_claim_counterexample :
    cleanHeadingText (s2l "a.1.2") = s2l "a.1" ∧
    cleanHeadingText (cleanHeadingText (s2l "a.1.2")) = s2l "a" ∧
    cleanHeadingText (cleanHeadingText (s2l "a.1.2")) ≠
      cleanHeadingText (s2l "a.1.2") := by
  decide

/-- C5 amended.  Cleaning is not idempotent; what holds is that a second
application only ever shortens from the end: clean (clean x) is a prefix
of clean x for every input. -/
theorem clean_clean_isPre (x : List Char) :
    List.IsPrefix (cleanHeadingText (cleanHeadingText x)) (cleanHeadingText x) := by
  have h1 : wsOkP (collapseWs x) := (collapseGo_wsOk x false).1
  obtain ⟨t2, ht2⟩ := removeTrailing_isPre (collapseWs x)
  have h3 : wsOkP (removeTrailing (collapseWs x)) :=
    wsOkP_append_left (by rw [ht2]; exact h1)
  obtain ⟨a, b, hdec, hwa, hwb⟩ := pyStrip_decomp (removeTrailing (collapseWs x))
  have h3' : wsOkP (a ++ pyStrip (removeTrailing (collapseWs x)) ++ b) := by
    rw [← hdec]
    exact h3
  have h4 : wsOkP (pyStrip (removeTrailing (collapseWs x))) :=
    wsOkP_append_right (wsOkP_append_left h3')
  have hyx : cleanHeadingText x = pyStrip (removeTrailing (collapseWs x)) := rfl
  rw [hyx]
  have h5 : ∀ c, (pyStrip (removeTrailing (collapseWs x))).head? = some c →
      isWs c = false := fun c hc => pyStrip_head_false hc
  have h6 : collapseGo false (pyStrip (removeTrailing (collapseWs x))) =
      pyStrip (removeTrailing (collapseWs x)) := (collapseGo_fix _ h4).1
  show List.IsPrefix
    (pyStrip (removeTrailing (collapseWs (pyStrip (removeTrailing (collapseWs x))))))
    (pyStrip (removeTrailing (collapseWs x)))
  rw [show collapseWs (pyStrip (removeTrailing (collapseWs x))) =
      pyStrip (removeTrailing (collapseWs x)) from h6]
  have h7 := removeTrailing_isPre (pyStrip (removeTrailing (collapseWs x)))
  have h8 : ∀ c, (removeTrailing (pyStrip (removeTrailing (collapseWs x)))).head? =
      some c → isWs c = false := by
    intro c hc
    exact h5 c (isPre_head h7 hc)
  exact (pyStrip_isPre_of_head h8).trans h7

/-! ### The TOC detector takes pages from the entries themselves -/

theorem tocAux_inv : ∀ (ls : List (List Char)) (b : Bool) (i : Nat) (c : Cand),
    c ∈ tocAux b i ls →
    i ≤ c.position ∧ ∃ l n t p, ls.get? (c.position - i) = some l ∧
      (tocMatch1 l = some (n, t, p) ∨
        (tocMatch1 l = none ∧ tocMatch2 l = some (n, t, p))) ∧
      c.text = n ++ ' ' :: t ∧ c.page = digitsToNat p ∧ c.confidence = 5 := by
  intro ls
  induction ls with
  | nil =>
    intro b i c h
    simp [tocAux] at h
  | cons line ls ih =>
    intro b i c h
    have hshift : ∀ b', c ∈ tocAux b' (i + 1) ls →
        i ≤ c.position ∧ ∃ l n t p, (line :: ls).get? (c.position - i) = some l ∧
          (tocMatch1 l = some (n, t, p) ∨
            (tocMatch1 l = none ∧ tocMatch2 l = some (n, t, p))) ∧
          c.text = n ++ ' ' :: t ∧ c.page = digitsToNat p ∧ c.confidence = 5 := by
      intro b' h'
      obtain ⟨hle, l, n, t, p, hget, hm, ht, hp, hc5⟩ := ih b' (i + 1) c h'
      refine ⟨by omega, l, n, t, p, ?_, hm, ht, hp, hc5⟩
      have hidx : c.position - i = (c.position - (i + 1)) + 1 := by omega
      rw [hidx]
      simpa using hget
    simp only [tocAux] at h
    split at h
    · exact hshift true h
    · split at h
      · exact hshift false h
      · split at h
        · split at h
          · rename_i n t p heq
            rcases List.mem_cons.1 h with rfl | h
            · exact ⟨Nat.le_refl _, line, n, t, p, by simp, Or.inl heq, rfl, rfl, rfl⟩
            · exact hshift true h
          · rename_i heq1
            split at h
            · rename_i n t p heq2
              rcases List.mem_cons.1 h with rfl | h
              · exact ⟨Nat.le_refl _, line, n, t, p, by simp,
                  Or.inr ⟨heq1, heq2⟩, rfl, rfl, rfl⟩
              · exact hshift true h
            · exact hshift true h
        · exact hshift b h

/-- C9.  Every TOC candidate's page is the number parsed from its own line's
trailing digits (one of the two TOC patterns matched, in order), bypassing the
sticky page map; and on the three-line example the detector emits exactly the
single H1 entry for page 5 and stops at the page-marker line. -/
theorem toc_pages_from_entries :
    (∀ (lines : List (List Char)) (c : Cand), c ∈ tocHeadings lines →
      ∃ l n t p, lines.get? c.position = some l ∧
        (tocMatch1 l = some (n, t, p) ∨
          (tocMatch1 l = none ∧ tocMatch2 l = some (n, t, p))) ∧
        c.text = n ++ ' ' :: t ∧ c.page = digitsToNat p) ∧
    tocHeadings (mkLines (s2l "Table of Contents\n1. Introduction 5\nPage 1 of 10")) =
      [⟨Level.H1, s2l "1 Introduction", 5, 1, 5⟩] := by
  constructor
  · intro lines c h
    obtain ⟨hle, l, n, t, p, hget, hm, ht, hp, -⟩ := tocAux_inv lines false 0 c h
    refine ⟨l, n, t, p, ?_, hm, ht, hp⟩
    simpa using hget
  · decide

/-- Witness for C9's universal component at the example candidate. -/
theorem toc_pages_from_entries_witness :
    ∃ l n t p,
      (mkLines (s2l "Table of Contents\n1. Introduction 5\nPage 1 of 10")).get?
        (⟨Level.H1, s2l "1 Introduction", 5, 1, 5⟩ : Cand).position = some l ∧
      (tocMatch1 l = some (n, t, p) ∨
        (tocMatch1 l = none ∧ tocMatch2 l = some (n, t, p))) ∧
      (⟨Level.H1, s2l "1 Introduction", 5, 1, 5⟩ : Cand).text = n ++ ' ' :: t ∧
      (⟨Level.H1, s2l "1 Introduction", 5, 1, 5⟩ : Cand).page = digitsToNat p :=
  toc_pages_from_entries.1
    (mkLines (s2l "Table of Contents\n1. Introduction 5\nPage 1 of 10"))
    ⟨Level.H1, s2l "1 Introduction", 5, 1, 5⟩ (by decide)

/-! ### Page markers: substring search and sticky propagation -/

theorem dropLit_some : ∀ {lit cs r : List Char}, dropLit lit cs = some r → cs = lit ++ r := by
  intro lit
  induction lit with
  | nil =>
    intro cs r h
    simp only [dropLit, Option.some.injEq] at h
    simp [h]
  | cons l ls ih =>
    intro cs r h
    cases cs with
    | nil => simp [dropLit] at h
    | cons c cs' =>
      simp only [dropLit] at h
      by_cases hc : c = l
      · rw [if_pos hc] at h
        rw [List.cons_append, ← ih h, hc]
      · rw [if_neg hc] at h
        cases h

theorem dropLit_self (lit r : List Char) : dropLit lit (lit ++ r) = some r := by
  induction lit with
  | nil => rfl
  | cons l ls ih => simp [dropLit, ih]

theorem takeWhile_all_append {p : Char → Bool} {l : List Char}
    (hl : ∀ c ∈ l, p c = true) {c : Char} (hc : p c = false) (r : List Char) :
    (l ++ c :: r).takeWhile p = l := by
  induction l with
  | nil =>
    rw [List.nil_append, List.takeWhile_cons_of_neg]
    simp [hc]
  | cons a l ih =>
    rw [List.cons_append, List.takeWhile_cons_of_pos (hl a (List.mem_cons_self _ _))]
    rw [ih (fun x hx => hl x (List.mem_cons_of_mem _ hx))]

theorem matchPageAt_decomp {p t post : List Char} (hp : p ≠ [])
    (hpd : ∀ c ∈ p, Char.isDigit c = true) (ht : t ≠ [])
    (htd : ∀ c ∈ t, Char.isDigit c = true) :
    matchPageAt (s2l "Page " ++ (p ++ (s2l " of " ++ (t ++ post)))) =
      some (digitsToNat p) := by
  obtain ⟨c0, t', rfl⟩ : ∃ c0 t', t = c0 :: t' := by
    cases t with
    | nil => exact absurd rfl ht
    | cons c0 t' => exact ⟨c0, t', rfl⟩
  have hd : takeDigits (p ++ (s2l " of " ++ c0 :: (t' ++ post))) = p := by
    rw [show s2l " of " ++ c0 :: (t' ++ post) =
        ' ' :: (s2l "of " ++ c0 :: (t' ++ post)) from rfl]
    exact takeWhile_all_append hpd (by decide) _
  simp only [matchPageAt, dropLit_self, List.cons_append, hd, List.drop_left]
  simp [hp, htd c0 (List.mem_cons_self _ _)]

theorem matchPageAt_none_of_head {c : Char} (hc : ¬ c = 'P') (cs : List Char) :
    matchPageAt (c :: cs) = none := by
  unfold matchPageAt
  have hdl : dropLit (s2l "Page ") (c :: cs) = none := by
    show dropLit ('P' :: s2l "age ") (c :: cs) = none
    simp [dropLit, hc]
  rw [hdl]

theorem searchMarker_of_matchPage {cs : List Char} {v : Nat}
    (h : matchPageAt cs = some v) (hne : cs ≠ []) : searchMarker cs = some v := by
  cases cs with
  | nil => exact absurd rfl hne
  | cons c cs' => simp [searchMarker, h]

theorem searchMarker_cons_none {c : Char} {cs : List Char}
    (h : matchPageAt (c :: cs) = none) : searchMarker (c :: cs) = searchMarker cs := by
  simp [searchMarker, h]

theorem searchMarker_decomp {pre p t post : List Char}
    (hpre : ∀ c ∈ pre, ¬ c = 'P') (hp : p ≠ [])
    (hpd : ∀ c ∈ p, Char.isDigit c = true) (ht : t ≠ [])
    (htd : ∀ c ∈ t, Char.isDigit c = true) :
    searchMarker (pre ++ (s2l "Page " ++ (p ++ (s2l " of " ++ (t ++ post))))) =
      some (digitsToNat p) := by
  induction pre with
  | nil =>
    rw [List.nil_append]
    refine searchMarker_of_matchPage (matchPageAt_decomp hp hpd ht htd) ?_
    simp [s2l]
  | cons c pre' ih =>
    rw [List.cons_append,
      searchMarker_cons_none (matchPageAt_none_of_head (hpre c (List.mem_cons_self _ _)) _)]
    exact ih (fun x hx => hpre x (List.mem_cons_of_mem _ hx))

theorem pagesAux_stable : ∀ (ls : List (List Char)) (cur : Nat) (j : Nat),
    j < ls.length → (∀ k, k ≤ j → searchMarker (ls.getD k []) = none) →
    (pagesAux cur ls).get? j = some cur := by
  intro ls
  induction ls with
  | nil =>
    intro cur j hj _
    simp at hj
  | cons l ls ih =>
    intro cur j hj hk
    have hl : searchMarker l = none := by simpa using hk 0 (Nat.zero_le _)
    have hstep : pagesAux cur (l :: ls) = cur :: pagesAux cur ls := by
      simp [pagesAux, hl]
    rw [hstep]
    cases j with
    | zero => rfl
    | succ j' =>
      show (pagesAux cur ls).get? j' = some cur
      refine ih cur j' (by simpa using hj) ?_
      intro k hk'
      simpa using hk (k + 1) (by omega)

theorem pagesAux_marker : ∀ (ls : List (List Char)) (cur : Nat) (i j : Nat)
    (li : List Char) (v : Nat),
    ls.get? i = some li → searchMarker li = some v → i ≤ j → j < ls.length →
    (∀ k, i < k → k ≤ j → searchMarker (ls.getD k []) = none) →
    (pagesAux cur ls).get? j = some v := by
  intro ls
  induction ls with
  | nil =>
    intro cur i j li v hget
    simp at hget
  | cons l ls ih =>
    intro cur i j li v hget hm hij hj hk
    cases i with
    | zero =>
      have hl : l = li := by simpa using hget
      have hstep : pagesAux cur (l :: ls) = v :: pagesAux v ls := by
        simp [pagesAux, hl ▸ hm]
      rw [hstep]
      cases j with
      | zero => rfl
      | succ j' =>
        show (pagesAux v ls).get? j' = some v
        refine pagesAux_stable ls v j' (by simpa using hj) ?_
        intro k hk'
        simpa using hk (k + 1) (by omega) (by omega)
    | succ i' =>
      obtain ⟨j', rfl⟩ : ∃ j', j = j' + 1 := ⟨j - 1, by omega⟩
      obtain ⟨cur', hstep⟩ : ∃ cur', pagesAux cur (l :: ls) = cur' :: pagesAux cur' ls := by
        cases hsl : searchMarker l with
        | none => exact ⟨cur, by simp [pagesAux, hsl]⟩
        | some w => exact ⟨w, by simp [pagesAux, hsl]⟩
      rw [hstep]
      show (pagesAux cur' ls).get? j' = some v
      refine ih cur' i' j' li v (by simpa using hget) hm (by omega) (by simpa using hj) ?_
      intro k h1 h2
      simpa using hk (k + 1) (by omega) (by omega)

/-- C10.  The page marker is found by a case-sensitive substring search: a
line of the form pre ++ "Page " ++ p ++ " of " ++ t ++ post (pre containing no
capital P so the leftmost match starts at the marker) sets the page to p, and
every following line up to the next marker-bearing line keeps page p. -/
theorem page_marker_substring (lines : List (List Char)) (i j : Nat)
    (pre p t post : List Char)
    (hline : lines.get? i =
      some (pre ++ (s2l "Page " ++ (p ++ (s2l " of " ++ (t ++ post))))))
    (hpre : ∀ c ∈ pre, ¬ c = 'P') (hp : p ≠ [])
    (hpd : ∀ c ∈ p, Char.isDigit c = true) (ht : t ≠ [])
    (htd : ∀ c ∈ t, Char.isDigit c = true) (hij : i ≤ j) (hj : j < lines.length)
    (hk : ∀ k, i < k → k ≤ j → searchMarker (lines.getD k []) = none) :
    (pagesAux 1 lines).get? j = some (digitsToNat p) :=
  pagesAux_marker lines 1 i j _ _ hline
    (searchMarker_decomp hpre hp hpd ht htd) hij hj hk

/-- Witness for C10: a marker inside a longer line sets the page for it and
the marker-free following line. -/
theorem page_marker_substring_witness :
    (pagesAux 1 (mkLines (s2l "intro words Page 3 of 7 more\nnext line"))).get? 1 =
      some 3 := by
  have hk : ∀ k, 0 < k → k ≤ 1 →
      searchMarker ((mkLines (s2l "intro words Page 3 of 7 more\nnext line")).getD k []) =
        none := by
    intro k h1 h2
    obtain rfl : k = 1 := by omega
    decide
  have h := page_marker_substring
    (mkLines (s2l "intro words Page 3 of 7 more\nnext line")) 0 1
    (s2l "intro words ") (s2l "3") (s2l "7") (s2l " more")
    (by decide) (by decide) (by decide) (by decide) (by decide) (by decide)
    (by decide) (by decide) hk
  rw [show digitsToNat (s2l "3") = 3 from by decide] at h
  exact h

/-! ### Candidate text lengths -/

theorem matchMainNum_inv {line n r : List Char} (h : matchMainNum line = some (n, r)) :
    n ≠ [] := by
  simp only [matchMainNum] at h
  split at h
  · cases h
  · rename_i hd
    split at h
    · rcases Option.map_eq_some'.1 h with ⟨r', hr', heq⟩
      rcases Prod.mk.injEq .. ▸ heq with ⟨hn, -⟩
      rw [← hn]
      simpa using hd
    · cases h

theorem matchSubNum_inv {line n r : List Char} (h : matchSubNum line = some (n, r)) :
    2 ≤ n.length := by
  simp only [matchSubNum] at h
  split at h
  · cases h
  · rename_i hd1
    split at h
    · split at h
      · cases h
      · rcases Option.map_eq_some'.1 h with ⟨r', hr', heq⟩
        rcases Prod.mk.injEq .. ▸ heq with ⟨hn, -⟩
        rw [← hn]
        have hp : 0 < (takeDigits line).length := by
          cases hq : takeDigits line with
          | nil => rw [hq] at hd1; simp at hd1
          | cons a l => simp [hq]
        simp only [List.length_append, List.length_cons]
        omega
    · cases h

theorem numberedAt_inv {lines : List (List Char)} {pages : List Nat} {i : Nat}
    {line : List Char} {c : Cand} (h : c ∈ numberedAt lines pages i line) :
    c.position = i ∧ 3 ≤ c.text.length := by
  simp only [numberedAt] at h
  split at h
  · simp at h
  · split at h
    · rename_i n r heq
      split at h
      · simp only [List.mem_singleton] at h
        subst h
        refine ⟨rfl, ?_⟩
        have hn : 0 < n.length := by
          cases hq : n with
          | nil => exact absurd hq (matchMainNum_inv heq)
          | cons a l => simp [hq]
        simp only [List.length_append, List.length_cons]
        omega
      · simp at h
    · split at h
      · rename_i n r heq
        split at h
        · simp only [List.mem_singleton] at h
          subst h
          refine ⟨rfl, ?_⟩
          have hn := matchSubNum_inv heq
          simp only [List.length_append, List.length_cons]
          omega
        · simp at h
      · simp at h

theorem valid_len {lines : List (List Char)} {text : List Char} {i : Nat}
    (h : isValidHeading lines text i = true) :
    3 ≤ text.length ∧ text.length ≤ 200 := by
  simp only [isValidHeading] at h
  by_cases h1 : (text.isEmpty || decide (text.length < 3) ||
      decide (200 < text.length)) = true
  · rw [if_pos h1] at h
    cases h
  · simp only [Bool.or_eq_true, decide_eq_true_eq, not_or] at h1
    rcases h1 with ⟨⟨-, h2⟩, h3⟩
    omega

theorem structuralAt_inv {lines : List (List Char)} {pages : List Nat} {i : Nat}
    {line : List Char} {c : Cand} (h : c ∈ structuralAt lines pages i line) :
    c.position = i ∧ 3 ≤ c.text.length := by
  simp only [structuralAt] at h
  split at h
  · split at h
    · rename_i hval
      simp only [List.mem_singleton] at h
      subst h
      exact ⟨rfl, (valid_len hval).1⟩
    · simp at h
  · simp at h

theorem lazyGo_ne : ∀ {cs accRev T P : List Char},
    lazyGo accRev cs = some (T, P) → T ≠ [] := by
  intro cs
  induction cs with
  | nil =>
    intro accRev T P h
    simp [lazyGo] at h
  | cons c cs ih =>
    intro accRev T P h
    simp only [lazyGo] at h
    split at h
    · simp only [Option.some.injEq, Prod.mk.injEq] at h
      rcases h with ⟨hT, -⟩
      rw [← hT]
      simp
    · exact ih h

theorem tocTailSearch_ne : ∀ {w : Nat} {rest T P : List Char},
    tocTailSearch w rest = some (T, P) → T ≠ [] := by
  intro w
  induction w with
  | zero =>
    intro rest T P h
    simp [tocTailSearch] at h
  | succ w ih =>
    intro rest T P h
    simp only [tocTailSearch] at h
    split at h
    · rename_i r heq
      rcases r with ⟨a, b⟩
      simp only [Option.some.injEq, Prod.mk.injEq] at h
      rcases h with ⟨hT, -⟩
      rw [← hT]
      exact lazyGo_ne heq
    · exact ih h

theorem tocMatch1_inv {line n t p : List Char} (h : tocMatch1 line = some (n, t, p)) :
    n ≠ [] ∧ t ≠ [] := by
  simp only [tocMatch1] at h
  split at h
  · cases h
  · rename_i hd
    split at h
    · rcases Option.map_eq_some'.1 h with ⟨tp, htp, heq⟩
      rcases tp with ⟨a, b⟩
      cases heq
      exact ⟨by simpa using hd, tocTailSearch_ne htp⟩
    · cases h

theorem tocMatch2_inv {line n t p : List Char} (h : tocMatch2 line = some (n, t, p)) :
    n ≠ [] ∧ t ≠ [] := by
  simp only [tocMatch2] at h
  split at h
  · cases h
  · rename_i hd1
    split at h
    · split at h
      · cases h
      · rcases Option.map_eq_some'.1 h with ⟨tp, htp, heq⟩
        rcases tp with ⟨a, b⟩
        cases heq
        exact ⟨by simp, tocTailSearch_ne htp⟩
    · cases h

theorem numberedAux_inv {lines : List (List Char)} {pages : List Nat} :
    ∀ {ls : List (List Char)} {i : Nat} {c : Cand},
    c ∈ numberedAux lines pages i ls →
    ∃ l', ls.get? (c.position - i) = some l' ∧ i ≤ c.position ∧
      c ∈ numberedAt lines pages c.position l' := by
  intro ls
  induction ls with
  | nil =>
    intro i c h
    simp [numberedAux] at h
  | cons l ls ih =>
    intro i c h
    rcases List.mem_append.1 (by simpa [numberedAux] using h) with h | h
    · have hpos := (numberedAt_inv h).1
      refine ⟨l, ?_, by omega, ?_⟩
      · rw [hpos]
        simp
      · rw [hpos]
        exact h
    · rcases ih h with ⟨l', hget, hle, hmem⟩
      refine ⟨l', ?_, by omega, hmem⟩
      have hidx : c.position - i = (c.position - (i + 1)) + 1 := by omega
      rw [hidx]
      simpa using hget

theorem structuralAux_inv {lines : List (List Char)} {pages : List Nat} :
    ∀ {ls : List (List Char)} {i : Nat} {c : Cand},
    c ∈ structuralAux lines pages i ls →
    ∃ l', ls.get? (c.position - i) = some l' ∧ i ≤ c.position ∧
      c ∈ structuralAt lines pages c.position l' := by
  intro ls
  induction ls with
  | nil =>
    intro i c h
    simp [structuralAux] at h
  | cons l ls ih =>
    intro i c h
    rcases List.mem_append.1 (by simpa [structuralAux] using h) with h | h
    · have hpos := (structuralAt_inv h).1
      refine ⟨l, ?_, by omega, ?_⟩
      · rw [hpos]
        simp
      · rw [hpos]
        exact h
    · rcases ih h with ⟨l', hget, hle, hmem⟩
      refine ⟨l', ?_, by omega, hmem⟩
      have hidx : c.position - i = (c.position - (i + 1)) + 1 := by omega
      rw [hidx]
      simpa using hget

theorem candsOf_len {input : List Char} {c : Cand} (h : c ∈ candsOf input) :
    3 ≤ c.text.length := by
  rcases List.mem_append.1 h with h | h
  · rcases List.mem_append.1 h with h | h
    · rcases numberedAux_inv h with ⟨l', -, -, hmem⟩
      exact (numberedAt_inv hmem).2
    · rcases structuralAux_inv h with ⟨l', -, -, hmem⟩
      exact (structuralAt_inv hmem).2
  · obtain ⟨-, l, n, t, p, -, hm, ht, -, -⟩ := tocAux_inv _ false 0 c h
    have hn : n ≠ [] ∧ t ≠ [] := by
      rcases hm with hm | ⟨-, hm⟩
      · exact tocMatch1_inv hm
      · exact tocMatch2_inv hm
    rw [ht]
    have h1 : 0 < n.length := List.length_pos.2 hn.1
    have h2 : 0 < t.length := List.length_pos.2 hn.2
    simp only [List.length_append, List.length_cons]
    omega

def longLine7 : List Char := s2l "1. " ++ List.replicate 395 'a' ++ s2l " 5"

set_option maxRecDepth 40000 in
/-- C7 counterexample.  A 400-character line inside a TOC block matches the
TOC entry pattern, which is not subjected to the validity filter: the final
outline contains its 397-character text, violating the claimed 200-character
bound. -/
theorem length_claim_counterexample :
    longLine7.length = 400 ∧
    (extractHeadings (s2l "Table of Contents\n" ++ longLine7)).outline =
      [⟨Level.H1, s2l "1 " ++ List.replicate 395 'a', 5⟩] ∧
    ((extractHeadings (s2l "Table of Contents\n" ++ longLine7)).outline.any
      (fun h => decide (200 < h.text.length))) = true := by
  decide

/-- C7 amended.  Every heading text in the final outline has length at least
3 (numbered and structural candidates by the validity filter, TOC candidates
by the shape of the pattern); the 200-character upper bound fails for the
outline because TOC candidates bypass the validity filter entirely. -/
theorem outline_text_min_len (input : List Char) :
    ∀ h ∈ (extractHeadings input).outline, 3 ≤ h.text.length := by
  intro h hm
  have hout : (extractHeadings input).outline =
      sortLe (leFinal (sortedOf input)) (dedupGo [] (sortedOf input)) := by
    simp [extractHeadings, outlineOf, cleanAndProcess, sortedOf]
  rw [hout] at hm
  have hm' : h ∈ dedupGo [] (sortedOf input) := (sortLe_perm _ _).mem_iff.1 hm
  rcases dedupGo_mem hm' with ⟨c, hc, rfl⟩
  exact candsOf_len ((sortLe_perm leConf (candsOf input)).mem_iff.1 hc)

/-- Witness for C7's amended bound at a concrete outline member. -/
theorem outline_text_min_len_witness :
    3 ≤ (⟨Level.H1, s2l "1 Introduction", 5⟩ : Heading).text.length :=
  outline_text_min_len (s2l "Table of Contents\n1. Introduction 5")
    ⟨Level.H1, s2l "1 Introduction", 5⟩ (by decide)

/-! ### Noise lines match no structural pattern -/

theorem takeApp {n : Nat} {l₁ l₂ : List Char} (h : n ≤ l₁.length) :
    (l₁ ++ l₂).take n = l₁.take n := by
  have h0 : n - l₁.length = 0 := by omega
  rw [List.take_append_eq_append_take, h0, List.take_zero, List.append_nil]

theorem take_clash (n : Nat) {L M b r2 r p q : List Char}
    (hLM : L = M ++ b) (hM : M = p ++ r2) (hLq : L = q ++ r)
    (hn1 : n ≤ p.length) (hn2 : n ≤ q.length) (hne : p.take n ≠ q.take n) : False := by
  apply hne
  have h1 : L.take n = p.take n := by
    rw [hLM, hM, List.append_assoc]
    exact takeApp hn1
  have h2 : L.take n = q.take n := by
    rw [hLq]
    exact takeApp hn2
  rw [← h1]
  exact h2

theorem ws_nil_of_head {L a rest : List Char} (hL : L = a ++ rest)
    (hws : ∀ c ∈ a, isWs c = true) {c0 : Char} (hh : L.head? = some c0)
    (hc0 : isWs c0 = false) : a = [] := by
  cases a with
  | nil => rfl
  | cons c a' =>
    rw [hL] at hh
    simp only [List.cons_append, List.head?_cons, Option.some.injEq] at hh
    have hcw := hws c (List.mem_cons_self _ _)
    rw [hh, hc0] at hcw
    cases hcw

theorem mem_of_decomp {L a M b p r2 : List Char} (hd : L = a ++ (M ++ b))
    (hM : M = p ++ r2) {c : Char} (hc : c ∈ p) : c ∈ L := by
  rw [hd, hM]
  simp only [List.mem_append]
  exact Or.inr (Or.inl (Or.inl hc))

theorem litOptS_decomp {lit L : List Char} (h : litOptS lit L = true) :
    ∃ r, L = lit ++ r := by
  simp only [litOptS, Bool.or_eq_true, decide_eq_true_eq] at h
  rcases h with h | h
  · exact ⟨[], by simp [h]⟩
  · exact ⟨['s'], h⟩

theorem twoWords_decomp {w1 w2 : List Char} {b : Bool} {L : List Char}
    (h : twoWords w1 w2 b L = true) : ∃ r, L = w1 ++ r := by
  simp only [twoWords] at h
  split at h
  · rename_i r heq
    exact ⟨r, dropLit_some heq⟩
  · cases h

theorem tocpat_decomp {L : List Char} (h : tableOfContentsPat L = true) :
    ∃ r, L = s2l "table" ++ r := by
  simp only [tableOfContentsPat] at h
  split at h
  · rename_i r heq
    exact ⟨r, dropLit_some heq⟩
  · cases h

theorem career_decomp {L : List Char} (h : careerPat L = true) :
    ∃ r, L = s2l "career" ++ r := by
  simp only [careerPat] at h
  split at h
  · rename_i r heq
    exact ⟨r, dropLit_some heq⟩
  · cases h

theorem startsWith_decomp {lit cs : List Char} (h : startsWithLit lit cs = true) :
    ∃ r, cs = lit ++ r := by
  simp only [startsWithLit, Option.isSome_iff_exists] at h
  rcases h with ⟨r, hr⟩
  exact ⟨r, dropLit_some hr⟩

theorem matchWordWsDigit_decomp {w L : List Char} (h : matchWordWsDigit w L = true) :
    ∃ r, L = w ++ r := by
  simp only [matchWordWsDigit] at h
  split at h
  · rename_i r heq
    exact ⟨r, dropLit_some heq⟩
  · cases h

theorem pre_weaken {M w r p q : List Char} (hM : M = w ++ r) (hw : w = p ++ q) :
    ∃ r', M = p ++ r' := ⟨q ++ r, by rw [hM, hw, List.append_assoc]⟩

/-- First three characters forced by a successful structural match. -/
def hasPre3 (M : List Char) : Prop :=
  (∃ r, M = s2l "ack" ++ r) ∨ (∃ r, M = s2l "abs" ++ r) ∨ (∃ r, M = s2l "int" ++ r) ∨
  (∃ r, M = s2l "con" ++ r) ∨ (∃ r, M = s2l "ref" ++ r) ∨ (∃ r, M = s2l "rev" ++ r) ∨
  (∃ r, M = s2l "tab" ++ r) ∨ (∃ r, M = s2l "car" ++ r) ∨ (∃ r, M = s2l "lea" ++ r) ∨
  (∃ r, M = s2l "ent" ++ r) ∨ (∃ r, M = s2l "bus" ++ r) ∨ (∃ r, M = s2l "tra" ++ r)

set_option maxHeartbeats 2000000 in
theorem structuralLevelOf_pre {M : List Char} {lvl : Level}
    (h : structuralLevelOf M = some lvl) : hasPre3 M := by
  simp only [structuralLevelOf] at h
  by_cases h1 : litOptS (s2l "acknowledgement") M = true
  · exact Or.inl (pre_weaken (litOptS_decomp h1).choose_spec
      (show s2l "acknowledgement" = s2l "ack" ++ s2l "nowledgement" by decide))
  rw [if_neg h1] at h
  by_cases h2 : M = s2l "abstract"
  · exact Or.inr (Or.inl ⟨s2l "tract", by rw [h2]; decide⟩)
  rw [if_neg h2] at h
  by_cases h3 : M = s2l "introduction"
  · exact Or.inr (Or.inr (Or.inl ⟨s2l "roduction", by rw [h3]; decide⟩))
  rw [if_neg h3] at h
  by_cases h4 : M = s2l "conclusion"
  · exact Or.inr (Or.inr (Or.inr (Or.inl ⟨s2l "clusion", by rw [h4]; decide⟩)))
  rw [if_neg h4] at h
  by_cases h5 : litOptS (s2l "reference") M = true
  · exact Or.inr (Or.inr (Or.inr (Or.inr (Or.inl
      (pre_weaken (litOptS_decomp h5).choose_spec
        (show s2l "reference" = s2l "ref" ++ s2l "erence" by decide))))))
  rw [if_neg h5] at h
  by_cases h6 : twoWords (s2l "revision") (s2l "history") false M = true
  · exact Or.inr (Or.inr (Or.inr (Or.inr (Or.inr (Or.inl
      (pre_weaken (twoWords_decomp h6).choose_spec
        (show s2l "revision" = s2l "rev" ++ s2l "ision" by decide)))))))
  rw [if_neg h6] at h
  by_cases h7 : tableOfContentsPat M = true
  · exact Or.inr (Or.inr (Or.inr (Or.inr (Or.inr (Or.inr (Or.inl
      (pre_weaken (tocpat_decomp h7).choose_spec
        (show s2l "table" = s2l "tab" ++ s2l "le" by decide))))))))
  rw [if_neg h7] at h
  by_cases h8 : twoWords (s2l "intended") (s2l "audience") false M = true
  · exact Or.inr (Or.inr (Or.inl
      (pre_weaken (twoWords_decomp h8).choose_spec
        (show s2l "intended" = s2l "int" ++ s2l "ended" by decide))))
  rw [if_neg h8] at h
  by_cases h9 : careerPat M = true
  · exact Or.inr (Or.inr (Or.inr (Or.inr (Or.inr (Or.inr (Or.inr (Or.inl
      (pre_weaken (career_decomp h9).choose_spec
        (show s2l "career" = s2l "car" ++ s2l "eer" by decide)))))))))
  rw [if_neg h9] at h
  by_cases h10 : twoWords (s2l "learning") (s2l "objective") true M = true
  · exact Or.inr (Or.inr (Or.inr (Or.inr (Or.inr (Or.inr (Or.inr (Or.inr (Or.inl
      (pre_weaken (twoWords_decomp h10).choose_spec
        (show s2l "learning" = s2l "lea" ++ s2l "rning" by decide))))))))))
  rw [if_neg h10] at h
  by_cases h11 : twoWords (s2l "entry") (s2l "requirement") true M = true
  · exact Or.inr (Or.inr (Or.inr (Or.inr (Or.inr (Or.inr (Or.inr (Or.inr (Or.inr
      (Or.inl (pre_weaken (twoWords_decomp h11).choose_spec
        (show s2l "entry" = s2l "ent" ++ s2l "ry" by decide)))))))))))
  rw [if_neg h11] at h
  by_cases h12 : twoWords (s2l "business") (s2l "outcome") true M = true
  · exact Or.inr (Or.inr (Or.inr (Or.inr (Or.inr (Or.inr (Or.inr (Or.inr (Or.inr
      (Or.inr (Or.inl (pre_weaken (twoWords_decomp h12).choose_spec
        (show s2l "business" = s2l "bus" ++ s2l "iness" by decide))))))))))))
  rw [if_neg h12] at h
  by_cases h13 : M = s2l "content"
  · exact Or.inr (Or.inr (Or.inr (Or.inl ⟨s2l "tent", by rw [h13]; decide⟩)))
  rw [if_neg h13] at h
  by_cases h14 : litOptS (s2l "trademark") M = true
  · exact Or.inr (Or.inr (Or.inr (Or.inr (Or.inr (Or.inr (Or.inr (Or.inr (Or.inr
      (Or.inr (Or.inr (pre_weaken (litOptS_decomp h14).choose_spec
        (show s2l "trademark" = s2l "tra" ++ s2l "demark" by decide))))))))))))
  rw [if_neg h14] at h
  cases h

theorem structural_noise_none {line : List Char} (hn : isNoiseLine line = true) :
    structuralLevelOf (pyStrip (line.map Char.toLower)) = none := by
  simp only [isNoiseLine, Bool.or_eq_true, Bool.and_eq_true] at hn
  revert hn
  generalize line.map Char.toLower = L
  intro hn
  by_contra hne
  obtain ⟨lvl, hlvl⟩ : ∃ lvl, structuralLevelOf (pyStrip L) = some lvl := by
    cases hx : structuralLevelOf (pyStrip L) with
    | none => exact absurd hx hne
    | some lvl => exact ⟨lvl, rfl⟩
  have hpre := structuralLevelOf_pre hlvl
  obtain ⟨a, b, hdec, hwa, hwb⟩ := pyStrip_decomp L
  rw [List.append_assoc] at hdec
  rcases hn with (((((((((h | h) | h) | h) | h) | h) | h) | h) | h) | h) | h
  · obtain ⟨r, hLr⟩ := startsWith_decomp h
    have ha : a = [] := ws_nil_of_head hdec hwa (by rw [hLr]; rfl) (by decide)
    have hLM : L = pyStrip L ++ b := by
      rw [ha] at hdec
      simpa using hdec
    rcases hpre with ⟨r2, hM⟩ | ⟨r2, hM⟩ | ⟨r2, hM⟩ | ⟨r2, hM⟩ | ⟨r2, hM⟩ | ⟨r2, hM⟩ |
      ⟨r2, hM⟩ | ⟨r2, hM⟩ | ⟨r2, hM⟩ | ⟨r2, hM⟩ | ⟨r2, hM⟩ | ⟨r2, hM⟩ <;>
      exact take_clash 3 hLM hM hLr (by decide) (by decide) (by decide)
  · obtain ⟨r, hLr⟩ := matchWordWsDigit_decomp h
    have ha : a = [] := ws_nil_of_head hdec hwa (by rw [hLr]; rfl) (by decide)
    have hLM : L = pyStrip L ++ b := by
      rw [ha] at hdec
      simpa using hdec
    rcases hpre with ⟨r2, hM⟩ | ⟨r2, hM⟩ | ⟨r2, hM⟩ | ⟨r2, hM⟩ | ⟨r2, hM⟩ | ⟨r2, hM⟩ |
      ⟨r2, hM⟩ | ⟨r2, hM⟩ | ⟨r2, hM⟩ | ⟨r2, hM⟩ | ⟨r2, hM⟩ | ⟨r2, hM⟩ <;>
      exact take_clash 3 hLM hM hLr (by decide) (by decide) (by decide)
  · obtain ⟨r, hLr⟩ := matchWordWsDigit_decomp h
    have ha : a = [] := ws_nil_of_head hdec hwa (by rw [hLr]; rfl) (by decide)
    have hLM : L = pyStrip L ++ b := by
      rw [ha] at hdec
      simpa using hdec
    rcases hpre with ⟨r2, hM⟩ | ⟨r2, hM⟩ | ⟨r2, hM⟩ | ⟨r2, hM⟩ | ⟨r2, hM⟩ | ⟨r2, hM⟩ |
      ⟨r2, hM⟩ | ⟨r2, hM⟩ | ⟨r2, hM⟩ | ⟨r2, hM⟩ | ⟨r2, hM⟩ | ⟨r2, hM⟩ <;>
      exact take_clash 3 hLM hM hLr (by decide) (by decide) (by decide)
  · have hall : ∀ c ∈ L, Char.isDigit c = true := List.all_eq_true.1 h.2
    rcases hpre with ⟨r2, hM⟩ | ⟨r2, hM⟩ | ⟨r2, hM⟩ | ⟨r2, hM⟩ | ⟨r2, hM⟩ | ⟨r2, hM⟩ |
      ⟨r2, hM⟩ | ⟨r2, hM⟩ | ⟨r2, hM⟩ | ⟨r2, hM⟩ | ⟨r2, hM⟩ | ⟨r2, hM⟩ <;>
      exact absurd (fun c hc => hall c (mem_of_decomp hdec hM hc)) (by decide)
  · obtain ⟨cs1, hLr⟩ : ∃ cs1, L = '©' :: cs1 := by
      cases L with
      | nil => cases h
      | cons c1 cs1 =>
        have hc1 : c1 = '©' := by simpa using h
        exact ⟨cs1, by rw [hc1]⟩
    have hLr' : L = ['©'] ++ cs1 := by simpa using hLr
    have ha : a = [] := ws_nil_of_head hdec hwa (by rw [hLr]; rfl) (by decide)
    have hLM : L = pyStrip L ++ b := by
      rw [ha] at hdec
      simpa using hdec
    rcases hpre with ⟨r2, hM⟩ | ⟨r2, hM⟩ | ⟨r2, hM⟩ | ⟨r2, hM⟩ | ⟨r2, hM⟩ | ⟨r2, hM⟩ |
      ⟨r2, hM⟩ | ⟨r2, hM⟩ | ⟨r2, hM⟩ | ⟨r2, hM⟩ | ⟨r2, hM⟩ | ⟨r2, hM⟩ <;>
      exact take_clash 1 hLM hM hLr' (by decide) (by decide) (by decide)
  · have hall : ∀ c ∈ L, Char.isDigit c = true := List.all_eq_true.1 h.2
    rcases hpre with ⟨r2, hM⟩ | ⟨r2, hM⟩ | ⟨r2, hM⟩ | ⟨r2, hM⟩ | ⟨r2, hM⟩ | ⟨r2, hM⟩ |
      ⟨r2, hM⟩ | ⟨r2, hM⟩ | ⟨r2, hM⟩ | ⟨r2, hM⟩ | ⟨r2, hM⟩ | ⟨r2, hM⟩ <;>
      exact absurd (fun c hc => hall c (mem_of_decomp hdec hM hc)) (by decide)
  · have hall : ∀ c ∈ L, (decide (c = 'i') || decide (c = 'v') || decide (c = 'x')) = true :=
      List.all_eq_true.1 h.2
    rcases hpre with ⟨r2, hM⟩ | ⟨r2, hM⟩ | ⟨r2, hM⟩ | ⟨r2, hM⟩ | ⟨r2, hM⟩ | ⟨r2, hM⟩ |
      ⟨r2, hM⟩ | ⟨r2, hM⟩ | ⟨r2, hM⟩ | ⟨r2, hM⟩ | ⟨r2, hM⟩ | ⟨r2, hM⟩ <;>
      exact absurd (fun c hc => hall c (mem_of_decomp hdec hM hc)) (by decide)
  · obtain ⟨r, hLr⟩ := startsWith_decomp h
    have ha : a = [] := ws_nil_of_head hdec hwa (by rw [hLr]; rfl) (by decide)
    have hLM : L = pyStrip L ++ b := by
      rw [ha] at hdec
      simpa using hdec
    rcases hpre with ⟨r2, hM⟩ | ⟨r2, hM⟩ | ⟨r2, hM⟩ | ⟨r2, hM⟩ | ⟨r2, hM⟩ | ⟨r2, hM⟩ |
      ⟨r2, hM⟩ | ⟨r2, hM⟩ | ⟨r2, hM⟩ | ⟨r2, hM⟩ | ⟨r2, hM⟩ | ⟨r2, hM⟩ <;>
      exact take_clash 3 hLM hM hLr (by decide) (by decide) (by decide)
  · obtain ⟨r, hLr⟩ := startsWith_decomp h
    have ha : a = [] := ws_nil_of_head hdec hwa (by rw [hLr]; rfl) (by decide)
    have hLM : L = pyStrip L ++ b := by
      rw [ha] at hdec
      simpa using hdec
    rcases hpre with ⟨r2, hM⟩ | ⟨r2, hM⟩ | ⟨r2, hM⟩ | ⟨r2, hM⟩ | ⟨r2, hM⟩ | ⟨r2, hM⟩ |
      ⟨r2, hM⟩ | ⟨r2, hM⟩ | ⟨r2, hM⟩ | ⟨r2, hM⟩ | ⟨r2, hM⟩ | ⟨r2, hM⟩ <;>
      exact take_clash 3 hLM hM hLr (by decide) (by decide) (by decide)
  · obtain ⟨r, hLr⟩ := startsWith_decomp h
    have ha : a = [] := ws_nil_of_head hdec hwa (by rw [hLr]; rfl) (by decide)
    have hLM : L = pyStrip L ++ b := by
      rw [ha] at hdec
      simpa using hdec
    rcases hpre with ⟨r2, hM⟩ | ⟨r2, hM⟩ | ⟨r2, hM⟩ | ⟨r2, hM⟩ | ⟨r2, hM⟩ | ⟨r2, hM⟩ |
      ⟨r2, hM⟩ | ⟨r2, hM⟩ | ⟨r2, hM⟩ | ⟨r2, hM⟩ | ⟨r2, hM⟩ | ⟨r2, hM⟩ <;>
      exact take_clash 3 hLM hM hLr (by decide) (by decide) (by decide)
  · have hall : ∀ c ∈ L, isWs c = true := List.all_eq_true.1 h
    rcases hpre with ⟨r2, hM⟩ | ⟨r2, hM⟩ | ⟨r2, hM⟩ | ⟨r2, hM⟩ | ⟨r2, hM⟩ | ⟨r2, hM⟩ |
      ⟨r2, hM⟩ | ⟨r2, hM⟩ | ⟨r2, hM⟩ | ⟨r2, hM⟩ | ⟨r2, hM⟩ | ⟨r2, hM⟩ <;>
      exact absurd (fun c hc => hall c (mem_of_decomp hdec hM hc)) (by decide)

theorem structuralAt_noise {lines : List (List Char)} {pages : List Nat} {i : Nat}
    {line : List Char} (hn : isNoiseLine line = true) :
    structuralAt lines pages i line = [] := by
  simp [structuralAt, structural_noise_none hn]

/-- C8.  A noise line yields no candidate from either the numbered or the
structural detector: the numbered loop skips noise lines explicitly, and no
noise line can match any structural pattern (the matched keyword prefix always
clashes with the noise shape), so every emitted candidate sits on a line that
is not noise. -/
theorem noise_no_candidates (lines : List (List Char)) (pages : List Nat) (c : Cand)
    (h : c ∈ numberedHeadings lines pages ++ structuralHeadings lines pages) :
    isNoiseLine (lines.getD c.position []) = false := by
  rcases List.mem_append.1 h with h | h
  · rcases numberedAux_inv h with ⟨l', hget, -, hmem⟩
    have hget' : lines.get? c.position = some l' := by simpa using hget
    have hl : lines.getD c.position [] = l' := by
      have hg2 : lines[c.position]? = some l' := by
        rw [← List.get?_eq_getElem?]
        exact hget'
      simp [List.getD_eq_getElem?_getD, hg2]
    rw [hl]
    cases hnoise : isNoiseLine l' with
    | false => rfl
    | true =>
      exfalso
      have hz : numberedAt lines pages c.position l' = [] := by
        simp [numberedAt, hnoise]
      rw [hz] at hmem
      simp at hmem
  · rcases structuralAux_inv h with ⟨l', hget, -, hmem⟩
    have hget' : lines.get? c.position = some l' := by simpa using hget
    have hl : lines.getD c.position [] = l' := by
      have hg2 : lines[c.position]? = some l' := by
        rw [← List.get?_eq_getElem?]
        exact hget'
      simp [List.getD_eq_getElem?_getD, hg2]
    rw [hl]
    cases hnoise : isNoiseLine l' with
    | false => rfl
    | true =>
      exfalso
      rw [structuralAt_noise hnoise] at hmem
      simp at hmem

/-- Witness for C8 at a concrete numbered candidate. -/
theorem noise_no_candidates_witness :
    isNoiseLine ((mkLines (s2l "Short\n1. Introduction")).getD
      (⟨Level.H1, s2l "1. Introduction", 1, 1, 9⟩ : Cand).position []) = false :=
  noise_no_candidates (mkLines (s2l "Short\n1. Introduction"))
    (pagesAux 1 (mkLines (s2l "Short\n1. Introduction")))
    ⟨Level.H1, s2l "1. Introduction", 1, 1, 9⟩ (by decide)

end App
